import Mathlib

/-!
Verification of the OCR quality-assessment scoring engine
(`src/lib/ocrqa_bloom.py`) against its natural-language specification.

The Python code is shallowly embedded: floats are modelled as exact
rationals (`ℚ`), Python dicts of counters as explicit lists or functions,
the Bloom filters as boolean membership oracles `String → Bool`, and the
external tokenizer / unicode normalizer / lowercaser as function
parameters of an environment structure.  `json.loads` failure is
modelled by the input line being `none`.
-/

namespace OcrQA

/-! ### Python `round(x, d)`: round-half-to-even at `d` decimal digits -/

/-- Round-half-to-even of a rational to an integer, as Python's `round`
behaves on exact values. -/
def roundHalfEven (y : ℚ) : ℤ :=
  if y - ⌊y⌋ < 1/2 then ⌊y⌋
  else if 1/2 < y - ⌊y⌋ then ⌊y⌋ + 1
  else if ⌊y⌋ % 2 = 0 then ⌊y⌋ else ⌊y⌋ + 1

/-- Python's `round(q, d)` on exact rational values. -/
def pyRound (d : ℕ) (q : ℚ) : ℚ :=
  (roundHalfEven (q * (10 : ℚ) ^ d)) / (10 : ℚ) ^ d

lemma roundHalfEven_ge (y : ℚ) : y - 1/2 ≤ (roundHalfEven y : ℚ) := by
  have h1 : (⌊y⌋ : ℚ) ≤ y := Int.floor_le y
  have h2 : y < ⌊y⌋ + 1 := Int.lt_floor_add_one y
  unfold roundHalfEven
  split_ifs <;> push_cast <;> linarith

lemma roundHalfEven_le (y : ℚ) : (roundHalfEven y : ℚ) ≤ y + 1/2 := by
  have h1 : (⌊y⌋ : ℚ) ≤ y := Int.floor_le y
  have h2 : y < ⌊y⌋ + 1 := Int.lt_floor_add_one y
  unfold roundHalfEven
  split_ifs <;> push_cast <;> linarith

lemma roundHalfEven_mono {y z : ℚ} (h : y ≤ z) :
    roundHalfEven y ≤ roundHalfEven z := by
  rcases lt_or_eq_of_le (Int.floor_le_floor h) with hf | hf
  · -- strictly smaller floor: `rhe y ≤ ⌊y⌋ + 1 ≤ ⌊z⌋ ≤ rhe z`
    have hy : roundHalfEven y ≤ ⌊y⌋ + 1 := by
      unfold roundHalfEven; split_ifs <;> omega
    have hz : ⌊z⌋ ≤ roundHalfEven z := by
      unfold roundHalfEven; split_ifs <;> omega
    omega
  · -- same floor: compare the fractional parts
    have hfr : y - ⌊y⌋ ≤ z - ⌊z⌋ := by
      rw [← hf]; linarith
    unfold roundHalfEven
    rw [← hf]
    split_ifs <;> first
      | omega
      | (exfalso; linarith)

lemma roundHalfEven_nonneg {y : ℚ} (h : 0 ≤ y) : 0 ≤ roundHalfEven y := by
  have h0 : (0:ℤ) ≤ ⌊y⌋ := by positivity
  unfold roundHalfEven; split_ifs <;> omega

lemma pyRound_nonneg {q : ℚ} (d : ℕ) (h : 0 ≤ q) : 0 ≤ pyRound d q := by
  unfold pyRound
  have hp : (0:ℚ) < (10 : ℚ) ^ d := by positivity
  have := roundHalfEven_nonneg (y := q * (10 : ℚ) ^ d) (by positivity)
  positivity

lemma pyRound_le_one {q : ℚ} (d : ℕ) (h : q ≤ 1) : pyRound d q ≤ 1 := by
  unfold pyRound
  have hp : (0:ℚ) < (10 : ℚ) ^ d := by positivity
  rw [div_le_one hp]
  have h1 : (roundHalfEven (q * (10 : ℚ) ^ d) : ℚ) ≤ q * (10 : ℚ) ^ d + 1/2 :=
    roundHalfEven_le _
  have h2 : q * (10 : ℚ) ^ d ≤ (10 : ℚ) ^ d := by
    calc q * (10 : ℚ) ^ d ≤ 1 * (10 : ℚ) ^ d := by
          exact mul_le_mul_of_nonneg_right h (le_of_lt hp)
      _ = (10 : ℚ) ^ d := one_mul _
  -- an integer `n` with `n ≤ 10^d + 1/2` satisfies `n ≤ 10^d`
  have hint : roundHalfEven (q * (10 : ℚ) ^ d) ≤ (10 : ℤ) ^ d := by
    have : (roundHalfEven (q * (10 : ℚ) ^ d) : ℚ) < ((10:ℤ) ^ d : ℤ) + 1 := by
      push_cast; linarith
    exact_mod_cast Int.lt_add_one_iff.mp (by exact_mod_cast this)
  calc (roundHalfEven (q * (10 : ℚ) ^ d) : ℚ) ≤ (((10:ℤ) ^ d : ℤ) : ℚ) := by
        exact_mod_cast hint
    _ = (10 : ℚ) ^ d := by push_cast; ring

lemma pyRound_mono {q r : ℚ} (d : ℕ) (h : q ≤ r) : pyRound d q ≤ pyRound d r := by
  unfold pyRound
  have hp : (0:ℚ) < (10 : ℚ) ^ d := by positivity
  have hm : (roundHalfEven (q * (10 : ℚ) ^ d) : ℚ) ≤
      (roundHalfEven (r * (10 : ℚ) ^ d) : ℚ) := by
    exact_mod_cast roundHalfEven_mono (mul_le_mul_of_nonneg_right h hp.le)
  gcongr

lemma pyRound_zero (d : ℕ) : pyRound d 0 = 0 := by
  unfold pyRound roundHalfEven
  norm_num

/-! ### The three score calculators (`compute_ocrqa_slc`,
`compute_ocrqa_unk_ratio`, `compute_ocrqa_unk_type_ratio`) -/

/-- `self.single_chars = set("àndl")` — the privileged single characters,
as one-character strings (Python compares the subtoken string against the
set's one-character string elements). -/
def single_chars : List String := ["à", "n", "d", "l"]

/-- One iteration of the loop body of `compute_ocrqa_slc` over the
`(IV, SL, OOV)` counter triple (the `self.unks` side counter is not
modelled; no claim refers to it). -/
def slcStep (cost : ℚ) (bf : String → Bool) (c : ℚ × ℚ × ℚ) (t : String) :
    ℚ × ℚ × ℚ :=
  if bf t then
    if 1 < t.length ∨ t ∈ single_chars then (c.1 + 1, c.2.1, c.2.2)
    else (c.1, c.2.1 + cost, c.2.2)
  else (c.1, c.2.1, c.2.2 + 1)

/-- `compute_ocrqa_slc` (src/lib/ocrqa_bloom.py:371-391): the SL budget is
initialised to `-len(subtoks)/20`, the loop classifies each subtoken into
IV / SL / OOV, SL is floored at `0`, and the result is
`round(IV / (IV + SL + OOV), 2)` (or `0.0` when the denominator is `0`). -/
def compute_ocrqa_slc (cost : ℚ) (bf : String → Bool) (subtoks : List String) : ℚ :=
  let c := subtoks.foldl (slcStep cost bf) (0, -(subtoks.length : ℚ) / 20, 0)
  let sl := if c.2.1 < 0 then 0 else c.2.1
  let total := c.1 + sl + c.2.2
  if total = 0 then 0 else pyRound 2 (c.1 / total)

/-- `compute_ocrqa_unk_ratio` (src/lib/ocrqa_bloom.py:393-401):
`round(known_count / len(subtoks_list), 2)`, `0.0` on an empty list. -/
def compute_ocrqa_unk_ratio (bf : String → Bool) (subtoks : List String) : ℚ :=
  if subtoks = [] then 0
  else pyRound 2 (((subtoks.filter (fun t => bf t)).length : ℚ) / (subtoks.length : ℚ))

/-- `compute_ocrqa_unk_type_ratio` (src/lib/ocrqa_bloom.py:403-413): the
Python `set(subtoks_list)` is modelled by `List.dedup` (what the code uses
of the set is only its cardinality and how many of its members the oracle
contains). -/
def compute_ocrqa_unk_type_ratio (bf : String → Bool) (subtoks : List String) : ℚ :=
  if subtoks.dedup = [] then 0
  else pyRound 2 (((subtoks.dedup.filter (fun t => bf t)).length : ℚ) / (subtoks.dedup.length : ℚ))

/-! Characterisation of the `slc` fold in terms of bucket counts. -/

/-- In-vocabulary bucket test of `compute_ocrqa_slc`. -/
def isIV (bf : String → Bool) (t : String) : Bool :=
  bf t && decide (1 < t.length ∨ t ∈ single_chars)

/-- Single-letter bucket test of `compute_ocrqa_slc`. -/
def isSL (bf : String → Bool) (t : String) : Bool :=
  bf t && !decide (1 < t.length ∨ t ∈ single_chars)

/-- Out-of-vocabulary bucket test of `compute_ocrqa_slc`. -/
def isOOV (bf : String → Bool) (t : String) : Bool := !bf t

/-- The flooring at zero applied to the SL budget. -/
def slFloor (x : ℚ) : ℚ := if x < 0 then 0 else x

/-- IV bucket size of `compute_ocrqa_slc`, as a rational. -/
def slcIV (bf : String → Bool) (l : List String) : ℚ := l.countP (isIV bf)

/-- Floored SL budget of `compute_ocrqa_slc`. -/
def slcSL (cost : ℚ) (bf : String → Bool) (l : List String) : ℚ :=
  slFloor (-(l.length : ℚ) / 20 + cost * l.countP (isSL bf))

/-- Denominator of `compute_ocrqa_slc`. -/
def slcTotal (cost : ℚ) (bf : String → Bool) (l : List String) : ℚ :=
  slcIV bf l + slcSL cost bf l + l.countP (isOOV bf)

lemma slc_fold (cost : ℚ) (bf : String → Bool) :
    ∀ (l : List String) (a b c : ℚ),
      l.foldl (slcStep cost bf) (a, b, c) =
        (a + l.countP (isIV bf), b + cost * l.countP (isSL bf),
          c + l.countP (isOOV bf)) := by
  intro l
  induction l with
  | nil => intro a b c; simp
  | cons t l ih =>
    intro a b c
    simp only [List.foldl_cons, List.countP_cons, slcStep]
    by_cases hbf : bf t
    · by_cases hiv : 1 < t.length ∨ t ∈ single_chars
      · rw [if_pos hbf, if_pos hiv, ih]
        simp only [Prod.mk.injEq, isIV, isSL, isOOV, hbf, hiv]
        refine ⟨?_, ?_, ?_⟩ <;> simp <;> push_cast <;> ring
      · rw [if_pos hbf, if_neg hiv, ih]
        simp only [Prod.mk.injEq, isIV, isSL, isOOV, hbf, hiv]
        refine ⟨?_, ?_, ?_⟩ <;> simp <;> push_cast <;> ring
    · rw [if_neg (by simpa using hbf), ih]
      simp only [Prod.mk.injEq, isIV, isSL, isOOV, hbf]
      refine ⟨?_, ?_, ?_⟩ <;> simp <;> push_cast <;> ring

/-- Closed form of `compute_ocrqa_slc` in terms of the bucket counts. -/
lemma compute_ocrqa_slc_eq (cost : ℚ) (bf : String → Bool) (l : List String) :
    compute_ocrqa_slc cost bf l =
      if slcTotal cost bf l = 0 then 0
      else pyRound 2 (slcIV bf l / slcTotal cost bf l) := by
  unfold compute_ocrqa_slc slcTotal slcSL slcIV slFloor
  rw [slc_fold]
  norm_num

lemma slcSL_nonneg (cost : ℚ) (bf : String → Bool) (l : List String) :
    0 ≤ slcSL cost bf l := by
  unfold slcSL slFloor
  split_ifs with h
  · exact le_refl 0
  · exact le_of_not_lt h

lemma slcIV_nonneg (bf : String → Bool) (l : List String) : 0 ≤ slcIV bf l := by
  unfold slcIV; positivity

lemma slcTotal_nonneg (cost : ℚ) (bf : String → Bool) (l : List String) :
    0 ≤ slcTotal cost bf l := by
  unfold slcTotal
  have h1 := slcSL_nonneg cost bf l
  have h2 := slcIV_nonneg bf l
  have h3 : (0:ℚ) ≤ l.countP (isOOV bf) := by positivity
  linarith

lemma slcIV_le_total (cost : ℚ) (bf : String → Bool) (l : List String) :
    slcIV bf l ≤ slcTotal cost bf l := by
  unfold slcTotal
  have h1 := slcSL_nonneg cost bf l
  have h3 : (0:ℚ) ≤ l.countP (isOOV bf) := by positivity
  linarith

lemma compute_ocrqa_slc_nonneg (cost : ℚ) (bf : String → Bool) (l : List String) :
    0 ≤ compute_ocrqa_slc cost bf l := by
  rw [compute_ocrqa_slc_eq]
  split_ifs with h
  · exact le_refl 0
  · exact pyRound_nonneg _ (div_nonneg (slcIV_nonneg bf l) (slcTotal_nonneg cost bf l))

lemma compute_ocrqa_slc_le_one (cost : ℚ) (bf : String → Bool) (l : List String) :
    compute_ocrqa_slc cost bf l ≤ 1 := by
  rw [compute_ocrqa_slc_eq]
  split_ifs with h
  · norm_num
  · apply pyRound_le_one
    have ht : 0 < slcTotal cost bf l :=
      lt_of_le_of_ne (slcTotal_nonneg cost bf l) (Ne.symm h)
    rw [div_le_one ht]
    exact slcIV_le_total cost bf l

lemma compute_ocrqa_unk_ratio_nonneg (bf : String → Bool) (l : List String) :
    0 ≤ compute_ocrqa_unk_ratio bf l := by
  unfold compute_ocrqa_unk_ratio
  split_ifs
  · exact le_refl 0
  · exact pyRound_nonneg _ (by positivity)

lemma compute_ocrqa_unk_ratio_le_one (bf : String → Bool) (l : List String) :
    compute_ocrqa_unk_ratio bf l ≤ 1 := by
  unfold compute_ocrqa_unk_ratio
  split_ifs with h
  · norm_num
  · apply pyRound_le_one
    have hlen : 0 < l.length := List.length_pos.mpr h
    rw [div_le_one (by exact_mod_cast hlen)]
    exact_mod_cast List.length_filter_le _ l

lemma compute_ocrqa_unk_type_ratio_nonneg (bf : String → Bool) (l : List String) :
    0 ≤ compute_ocrqa_unk_type_ratio bf l := by
  unfold compute_ocrqa_unk_type_ratio
  split_ifs
  · exact le_refl 0
  · exact pyRound_nonneg _ (by positivity)

lemma compute_ocrqa_unk_type_ratio_le_one (bf : String → Bool) (l : List String) :
    compute_ocrqa_unk_type_ratio bf l ≤ 1 := by
  unfold compute_ocrqa_unk_type_ratio
  split_ifs with h
  · norm_num
  · apply pyRound_le_one
    have hlen : 0 < l.dedup.length := List.length_pos.mpr h
    rw [div_le_one (by exact_mod_cast hlen)]
    exact_mod_cast List.length_filter_le _ l.dedup

/-! Monotonicity of `slc` under appending out-of-vocabulary subtokens. -/

lemma slFloor_mono {x y : ℚ} (h : x ≤ y) : slFloor x ≤ slFloor y := by
  unfold slFloor
  split_ifs <;> linarith

lemma slFloor_sub_le {x d : ℚ} (hd : 0 ≤ d) : slFloor x - d ≤ slFloor (x - d) := by
  unfold slFloor
  split_ifs <;> linarith

lemma compute_ocrqa_slc_append_oov (cost : ℚ) (bf : String → Bool)
    (l e : List String) (he : ∀ t ∈ e, bf t = false) :
    compute_ocrqa_slc cost bf (l ++ e) ≤ compute_ocrqa_slc cost bf l := by
  -- appended OOV tokens leave the IV and SL buckets untouched
  have hIV : (l ++ e).countP (isIV bf) = l.countP (isIV bf) := by
    rw [List.countP_append]
    have : e.countP (isIV bf) = 0 := by
      rw [List.countP_eq_zero]
      intro t ht
      simp [isIV, he t ht]
    omega
  have hSL : (l ++ e).countP (isSL bf) = l.countP (isSL bf) := by
    rw [List.countP_append]
    have : e.countP (isSL bf) = 0 := by
      rw [List.countP_eq_zero]
      intro t ht
      simp [isSL, he t ht]
    omega
  have hOOV : (l ++ e).countP (isOOV bf) = l.countP (isOOV bf) + e.length := by
    rw [List.countP_append]
    have : e.countP (isOOV bf) = e.length := by
      rw [List.countP_eq_length]
      intro t ht
      simp [isOOV, he t ht]
    omega
  have hIVq : slcIV bf (l ++ e) = slcIV bf l := by
    unfold slcIV; rw [hIV]
  have hm : (0:ℚ) ≤ (e.length : ℚ) := by positivity
  have hSLle : slcSL cost bf (l ++ e) ≤ slcSL cost bf l := by
    unfold slcSL
    rw [hSL, List.length_append]
    apply slFloor_mono
    push_cast
    linarith
  have hSLge : slcSL cost bf l - (e.length : ℚ) / 20 ≤ slcSL cost bf (l ++ e) := by
    unfold slcSL
    rw [hSL, List.length_append]
    have := slFloor_sub_le
      (x := -(l.length : ℚ) / 20 + cost * l.countP (isSL bf))
      (d := (e.length : ℚ) / 20) (by positivity)
    calc slFloor (-(l.length : ℚ) / 20 + cost * l.countP (isSL bf)) - (e.length : ℚ) / 20
        ≤ slFloor (-(l.length : ℚ) / 20 + cost * l.countP (isSL bf) - (e.length : ℚ) / 20) := this
      _ = slFloor (-((l.length : ℚ) + (e.length : ℚ)) / 20 + cost * l.countP (isSL bf)) := by
          ring_nf
      _ = slFloor (-(((l.length : ℕ) + (e.length : ℕ) : ℕ) : ℚ) / 20 + cost * l.countP (isSL bf)) := by
          push_cast; ring_nf
  have hTot : slcTotal cost bf l ≤ slcTotal cost bf (l ++ e) := by
    unfold slcTotal
    rw [hIVq, hOOV]
    push_cast
    have h20 : (e.length : ℚ) / 20 ≤ (e.length : ℚ) := by linarith
    linarith
  rw [compute_ocrqa_slc_eq, compute_ocrqa_slc_eq]
  split_ifs with h1 h2 h2
  · exact le_refl 0
  · exact pyRound_nonneg _ (div_nonneg (slcIV_nonneg bf l) (slcTotal_nonneg cost bf l))
  · -- original total zero: then IV = 0 and the appended score is `round 0 = 0`
    have hiv0 : slcIV bf l = 0 := by
      have h1' := slcIV_le_total cost bf l
      have hnn := slcIV_nonneg bf l
      rw [h2] at h1'
      linarith
    rw [hIVq, hiv0, zero_div, pyRound_zero]
  · apply pyRound_mono
    rw [hIVq]
    have htpos : 0 < slcTotal cost bf l :=
      lt_of_le_of_ne (slcTotal_nonneg cost bf l) (Ne.symm h2)
    gcongr
    exact slcIV_nonneg bf l

lemma compute_ocrqa_slc_nil (cost : ℚ) (bf : String → Bool) :
    compute_ocrqa_slc cost bf [] = 0 := by
  unfold compute_ocrqa_slc
  norm_num

lemma compute_ocrqa_unk_ratio_nil (bf : String → Bool) :
    compute_ocrqa_unk_ratio bf [] = 0 := by
  unfold compute_ocrqa_unk_ratio
  norm_num

lemma compute_ocrqa_unk_type_ratio_nil (bf : String → Bool) :
    compute_ocrqa_unk_type_ratio bf [] = 0 := by
  unfold compute_ocrqa_unk_type_ratio
  norm_num

/-! ### Data model of the processing pipeline -/

/-- A successfully parsed input JSON line: `obj.get("id")` and the
optional full-text field `"ft"`. -/
structure RawDoc where
  id : Option String
  ft : Option String
  deriving DecidableEq

/-- An input line of the JSONL stream.  `none` models a line on which
`json.loads` raises (a malformed record). -/
abbrev Line := Option RawDoc

/-- The configuration surface of `OcrQABloomProcessor` that the scoring
core reads (`options` fields stored in `__init__`). -/
structure Config where
  languages : List String
  bloomdicts : List String
  methods : List String
  keep_best : Bool
  single_letter_cost : ℚ
  single_symbol_cost : ℚ
  min_subtokens : ℕ
  min_subtoken_length : ℕ
  verbose_output : Bool
  unicode_normalization : Option String

/-- External collaborators: the loaded Bloom filters (paired positionally
with `Config.bloomdicts`), the `subtokens` tokenizer of
`impresso_pipelines` (language, `min_length`, normalized text), Python's
`unicodedata.normalize` and `str.lower`, the optional language
identification map (`None` when `--lid` is absent), and the run's
timestamp / git version recorded into every result. -/
structure Env where
  blooms : List (String → Bool)
  tok : Option String → ℕ → String → List String
  normalize : String → String → String
  lower : String → String
  lid : Option (List (String × Option String))
  timestamp : String
  git_version : Option String

/-- Return value of `get_subtokens`. -/
structure SubtoksInfo where
  id : Option String
  subtokens : List String
  char_length : ℕ
  deriving DecidableEq

/-- One output record (`result` dict of `compute_results`).  Fields that
the code only adds for configured methods / verbose mode are `Option`s. -/
structure ScoreRecord where
  ci_id : Option String
  lg : String
  ocrqa : Option ℚ
  bloom : String
  subtokens : ℕ
  timestamp : String
  git_version : Option String
  subtoken_char_ratio : ℚ
  ocrqa_slc : Option ℚ
  ocrqa_unk_ratio : Option ℚ
  ocrqa_unk_type_ratio : Option ℚ
  unk_freq : Option (List (String × ℕ))
  deriving DecidableEq

/-- Mutable processor statistics: `self.ocrqa_stats` and
`self.lang_stats` (a `defaultdict(int)`, modelled as a total function). -/
structure PState where
  ocrqaStats : List ℚ
  langStats : String → ℕ

/-- Initial statistics state of a fresh processor. -/
def initState : PState := { ocrqaStats := [], langStats := fun _ => 0 }

/-- `defaultdict` increment `self.lang_stats[k] += 1`. -/
def bump (f : String → ℕ) (k : String) : String → ℕ :=
  fun x => if x = k then f x + 1 else f x

/-- `compute_subtoken_char_ratio` (src/lib/ocrqa_bloom.py:296-333). -/
def compute_subtoken_char_ratio (subtoks : List String) (char_length : ℕ) : ℚ :=
  if char_length = 0 then 0
  else pyRound 3 ((subtoks.length : ℚ) / (char_length : ℚ))

/-- `get_subtokens` (src/lib/ocrqa_bloom.py:335-369): lowercase the `ft`
field, apply the configured unicode normalization, tokenize with the
external `subtokens` function (`unicode_normalize=None`,
`min_length=self.min_subtoken_length`, optional `language`). -/
def get_subtokens (cfg : Config) (env : Env) (doc : RawDoc)
    (language : Option String) : SubtoksInfo :=
  match doc.ft with
  | none => { id := doc.id, subtokens := [], char_length := 0 }
  | some ft0 =>
    let ft1 := env.lower ft0
    let ft := match cfg.unicode_normalization with
      | some form => env.normalize form ft1
      | none => ft1
    { id := doc.id
      subtokens := env.tok language cfg.min_subtoken_length ft
      char_length := ft.length }

/-- Insertion of a string into a sorted list (used to model Python's
`sorted`; equal strings are indistinguishable, so stability is moot). -/
def insertSorted (a : String) : List String → List String
  | [] => [a]
  | b :: t => if a ≤ b then a :: b :: t else b :: insertSorted a t

/-- Python's `sorted` on a list of strings (code-point lexicographic). -/
def sortStrings (l : List String) : List String := l.foldr insertSorted []

/-- The `unk_freq` Counter of verbose mode
(src/lib/ocrqa_bloom.py:603-611): count, over the sorted subtoken list,
the occurrences of each subtoken the oracle does not contain; keys appear
in first-occurrence (i.e. sorted) order. -/
def unkFreq (bf : String → Bool) (subtoks : List String) : List (String × ℕ) :=
  let unk := (sortStrings subtoks).filter (fun t => !(bf t))
  unk.dedup.map (fun t => (t, unk.count t))

/-- Record construction part of `compute_results`
(src/lib/ocrqa_bloom.py:551-611): base fields, `subtoken_char_ratio`, one
`ocrqa_<method>` field per configured method, `ocrqa` set from the first
configured method, `unk_freq` in verbose mode. -/
def mkRecord (cfg : Config) (env : Env) (info : SubtoksInfo)
    (subtoks : List String) (bf : String → Bool) (lang : String)
    (lang_index : ℕ) : ScoreRecord :=
  let base : ScoreRecord :=
    { ci_id := info.id
      lg := lang
      ocrqa := none
      bloom := cfg.bloomdicts.getD lang_index ""
      subtokens := subtoks.length
      timestamp := env.timestamp
      git_version := env.git_version
      subtoken_char_ratio := compute_subtoken_char_ratio subtoks info.char_length
      ocrqa_slc := none
      ocrqa_unk_ratio := none
      ocrqa_unk_type_ratio := none
      unk_freq := none }
  let r1 := if "slc" ∈ cfg.methods then
      { base with ocrqa_slc := some (compute_ocrqa_slc cfg.single_letter_cost bf subtoks) }
    else base
  let r2 := if "unk_ratio" ∈ cfg.methods then
      { r1 with ocrqa_unk_ratio := some (compute_ocrqa_unk_ratio bf subtoks) }
    else r1
  let r3 := if "unk_type_ratio" ∈ cfg.methods then
      { r2 with ocrqa_unk_type_ratio := some (compute_ocrqa_unk_type_ratio bf subtoks) }
    else r2
  let r4 := match cfg.methods.head? with
    | some "slc" => { r3 with ocrqa := r3.ocrqa_slc }
    | some "unk_ratio" => { r3 with ocrqa := r3.ocrqa_unk_ratio }
    | some "unk_type_ratio" => { r3 with ocrqa := r3.ocrqa_unk_type_ratio }
    | _ => r3
  if cfg.verbose_output then { r4 with unk_freq := some (unkFreq bf subtoks) }
  else r4

/-- One best-candidate update of `compute_results`: `if
keep_best_method == nm and v > best_ocrqa_value: best := (v,
len(results))` (src/lib/ocrqa_bloom.py:573-575, 579-581, 587-592). -/
def bestUpdate (kbm : Option String) (nm : String) (v bv : ℚ) (bi : ℤ)
    (len : ℕ) : ℚ × ℤ :=
  if kbm = some nm ∧ bv < v then (v, (len : ℤ)) else (bv, bi)

/-- Best-candidate tracking part of `compute_results`: the three method
blocks in order (`slc`, `unk_ratio`, `unk_type_ratio`). -/
def bestPart (cfg : Config) (bf : String → Bool) (subtoks : List String)
    (kbm : Option String) (bv : ℚ) (bi : ℤ) (len : ℕ) : ℚ × ℤ :=
  let p1 := if "slc" ∈ cfg.methods then
      bestUpdate kbm "slc" (compute_ocrqa_slc cfg.single_letter_cost bf subtoks)
        bv bi len
    else (bv, bi)
  let p2 := if "unk_ratio" ∈ cfg.methods then
      bestUpdate kbm "unk_ratio" (compute_ocrqa_unk_ratio bf subtoks)
        p1.1 p1.2 len
    else p1
  if "unk_type_ratio" ∈ cfg.methods then
    bestUpdate kbm "unk_type_ratio" (compute_ocrqa_unk_type_ratio bf subtoks)
      p2.1 p2.2 len
  else p2

/-- The appends `self.ocrqa_stats.append(ocrqa_slc)` performed inside
`compute_results` (src/lib/ocrqa_bloom.py:571): one per candidate when
`slc` is among the configured methods. -/
def statsAdds (cfg : Config) (bf : String → Bool) (subtoks : List String) :
    List ℚ :=
  if "slc" ∈ cfg.methods then
    [compute_ocrqa_slc cfg.single_letter_cost bf subtoks]
  else []

/-- `compute_results` (src/lib/ocrqa_bloom.py:516-612), as the triple of
its three effects: the result record, the updated
`(best_ocrqa_value, best_result_index)` pair, and the values appended to
`self.ocrqa_stats` during the call. -/
def compute_results (cfg : Config) (env : Env) (info : SubtoksInfo)
    (subtoks : List String) (bf : String → Bool) (lang : String)
    (lang_index : ℕ) (kbm : Option String) (bv : ℚ) (bi : ℤ)
    (resultsLen : ℕ) : ScoreRecord × (ℚ × ℤ) × List ℚ :=
  (mkRecord cfg env info subtoks bf lang lang_index,
   bestPart cfg bf subtoks kbm bv bi resultsLen,
   statsAdds cfg bf subtoks)

/-- `keep_best_method` of `process_line` (src/lib/ocrqa_bloom.py:428-432). -/
def keepBestMethod (cfg : Config) : Option String :=
  if cfg.keep_best = true ∨ cfg.methods.length = 1 then cfg.methods.head?
  else none

/-- The score a record contributes to `self.ocrqa_stats` at emission time
(src/lib/ocrqa_bloom.py:497-502, 507-512): fixed priority
`ocrqa_slc`, then `ocrqa_unk_ratio`, then `ocrqa_unk_type_ratio`. -/
def statScoreOf (r : ScoreRecord) : Option ℚ :=
  match r.ocrqa_slc with
  | some v => some v
  | none =>
    match r.ocrqa_unk_ratio with
    | some v => some v
    | none => r.ocrqa_unk_type_ratio

/-- Append a record's stat score to `self.ocrqa_stats` (no-op when the
record carries none of the three method fields). -/
def appendStat (st : PState) (r : ScoreRecord) : PState :=
  match statScoreOf r with
  | some v => { st with ocrqaStats := st.ocrqaStats ++ [v] }
  | none => st

/-- Placeholder record for the (unreachable) out-of-bounds list access. -/
def dfltRecord : ScoreRecord :=
  { ci_id := none, lg := "", ocrqa := none, bloom := "", subtokens := 0,
    timestamp := "", git_version := none, subtoken_char_ratio := 0,
    ocrqa_slc := none, ocrqa_unk_ratio := none, ocrqa_unk_type_ratio := none,
    unk_freq := none }

/-- The emission block at the end of `process_line`
(src/lib/ocrqa_bloom.py:493-512): when keep-best is active and a best
index was recorded, emit only `results[best_result_index]` and append its
stat score; otherwise emit all results, appending each one's stat score. -/
def finalize (cfg : Config) (x : List ScoreRecord × ℤ × PState) :
    List ScoreRecord × PState :=
  match x with
  | (results, bi, st) =>
    if (cfg.keep_best = true ∨ cfg.methods.length = 1) ∧ bi ≠ -1 then
      ([results.getD bi.toNat dfltRecord],
       appendStat st (results.getD bi.toNat dfltRecord))
    else (results, results.foldl appendStat st)

/-- The `for lang_index, bf in enumerate(self.bloom_filters)` loop of the
unlabelled branch of `process_line` (src/lib/ocrqa_bloom.py:467-491),
threading `(results, best_ocrqa_value, best_result_index, stats)`. -/
def scanLangs (cfg : Config) (env : Env) (doc : RawDoc) (kbm : Option String) :
    List (ℕ × (String → Bool)) →
      List ScoreRecord × ℚ × ℤ × PState → List ScoreRecord × ℚ × ℤ × PState
  | [], acc => acc
  | (i, bf) :: rest, (results, bv, bi, st) =>
    let lang := cfg.languages.getD i ""
    let info := get_subtokens cfg env doc (some lang)
    if info.subtokens.length < cfg.min_subtokens then
      scanLangs cfg env doc kbm rest (results, bv, bi, st)
    else
      let out := compute_results cfg env info info.subtokens bf lang i kbm bv bi
        results.length
      scanLangs cfg env doc kbm rest
        (results ++ [out.1], out.2.1.1, out.2.1.2,
         { ocrqaStats := st.ocrqaStats ++ out.2.2,
           langStats := bump st.langStats lang })

/-- `self.lang_ident_data.get(docid)`. -/
def lidLookup (l : List (String × Option String)) (k : Option String) :
    Option String :=
  match k with
  | none => none
  | some s => (l.lookup s).getD none

/-- The language `process_line` acts on: `lang` is set from the language
identification data only when that dict is present and non-empty
(Python truthiness of `self.lang_ident_data`), and the labelled branch is
taken only when `lang` itself is truthy (not `None`, not `""`). -/
def effLang (env : Env) (doc : RawDoc) : Option String :=
  let lang := match env.lid with
    | some l => if l = [] then none else lidLookup l doc.id
    | none => none
  match lang with
  | some s => if s = "" then none else some s
  | none => none

/-- Body of `process_line` (src/lib/ocrqa_bloom.py:415-514) for a
successfully parsed line: the labelled branch, the missing-dictionary
branch, the unlabelled all-languages loop, and the final emission block. -/
def processDoc (cfg : Config) (env : Env) (st : PState) (doc : RawDoc) :
    List ScoreRecord × PState :=
  let kbm := keepBestMethod cfg
  match effLang env doc with
  | some lg =>
    if lg ∈ cfg.languages then
      let info := get_subtokens cfg env doc (some lg)
      if info.subtokens.length < cfg.min_subtokens then ([], st)
      else
        let i := cfg.languages.indexOf lg
        let bf := env.blooms.getD i (fun _ => false)
        let out := compute_results cfg env info info.subtokens bf lg i kbm
          (-1) (-1) 0
        finalize cfg ([out.1], out.2.1.2,
          { ocrqaStats := st.ocrqaStats ++ out.2.2,
            langStats := bump st.langStats lg })
    else
      ([], { st with langStats := bump st.langStats ("missing-dict-for-" ++ lg) })
  | none =>
    let s := scanLangs cfg env doc kbm env.blooms.enum ([], -1, -1, st)
    finalize cfg (s.1, s.2.2.1, s.2.2.2)

/-- `process_line` (src/lib/ocrqa_bloom.py:415-514).  A malformed line
(`none`) models the `json.loads` exception, which propagates to the
caller. -/
def process_line (cfg : Config) (env : Env) (st : PState) (line : Line) :
    Except Unit (List ScoreRecord × PState) :=
  match line with
  | none => Except.error ()
  | some doc => Except.ok (processDoc cfg env st doc)

/-- The per-line loop of `run` (src/lib/ocrqa_bloom.py:626-640) combined
with the top-level exception handling of `main`
(src/lib/ocrqa_bloom.py:856-862): records printed so far stay emitted;
an exception from `process_line` aborts the whole run (the `Bool`
component; `main` then exits with status 1). -/
def runLines (cfg : Config) (env : Env) :
    List Line → PState → List ScoreRecord × PState × Bool
  | [], st => ([], st, false)
  | l :: ls, st =>
    match process_line cfg env st l with
    | Except.error _ => ([], st, true)
    | Except.ok p =>
      let rest := runLines cfg env ls p.2
      (p.1 ++ rest.1, rest.2.1, rest.2.2)

/-- The `aggregate_score` of a record: its `ocrqa` field (always present
on records built with a non-empty configured method list). -/
def aggOf (r : ScoreRecord) : ℚ := r.ocrqa.getD 0

/-- Arithmetic mean of a list of rationals, as computed for the
`STATS-MEANOCRAQ` log line (src/lib/ocrqa_bloom.py:641-643). -/
def meanOf (l : List ℚ) : ℚ := l.sum / (l.length : ℚ)

/-! ### Specification-side characterisations of the per-document loop -/

/-- The method names accepted by `--methods` (argparse `choices`). -/
def validMethods : List String := ["slc", "unk_ratio", "unk_type_ratio"]

/-- The score computed by a given method. -/
def methodScore (cfg : Config) (m : String) (bf : String → Bool)
    (subtoks : List String) : ℚ :=
  if m = "slc" then compute_ocrqa_slc cfg.single_letter_cost bf subtoks
  else if m = "unk_ratio" then compute_ocrqa_unk_ratio bf subtoks
  else if m = "unk_type_ratio" then compute_ocrqa_unk_type_ratio bf subtoks
  else 0

/-- Subtoken info computed for trial index `i` of the unlabelled loop. -/
def trialInfo (cfg : Config) (env : Env) (doc : RawDoc) (i : ℕ) : SubtoksInfo :=
  get_subtokens cfg env doc (some (cfg.languages.getD i ""))

/-- The candidate records the unlabelled loop produces from the given
enumerated oracles (one per trial meeting the minimum subtoken count). -/
def candidatesFrom (cfg : Config) (env : Env) (doc : RawDoc)
    (l : List (ℕ × (String → Bool))) : List ScoreRecord :=
  l.filterMap fun p =>
    if (trialInfo cfg env doc p.1).subtokens.length < cfg.min_subtokens then none
    else some (mkRecord cfg env (trialInfo cfg env doc p.1)
      (trialInfo cfg env doc p.1).subtokens p.2 (cfg.languages.getD p.1 "") p.1)

/-- The languages for which the unlabelled loop computes a candidate, in
loop order and with multiplicity. -/
def scoredLangsFrom (cfg : Config) (env : Env) (doc : RawDoc)
    (l : List (ℕ × (String → Bool))) : List String :=
  l.filterMap fun p =>
    if (trialInfo cfg env doc p.1).subtokens.length < cfg.min_subtokens then none
    else some (cfg.languages.getD p.1 "")

/-- The values appended to `self.ocrqa_stats` by the `compute_results`
calls of the unlabelled loop. -/
def slcStatsFrom (cfg : Config) (env : Env) (doc : RawDoc)
    (l : List (ℕ × (String → Bool))) : List ℚ :=
  (l.filterMap fun p =>
    if (trialInfo cfg env doc p.1).subtokens.length < cfg.min_subtokens then none
    else some (statsAdds cfg p.2 (trialInfo cfg env doc p.1).subtokens)).join

/-- The `(best_ocrqa_value, best_result_index)` accumulator of the
unlabelled loop, isolated from the other loop effects. -/
def bestFrom (cfg : Config) (env : Env) (doc : RawDoc) (kbm : Option String) :
    List (ℕ × (String → Bool)) → ℚ → ℤ → ℕ → ℚ × ℤ
  | [], bv, bi, _ => (bv, bi)
  | p :: rest, bv, bi, len =>
    if (trialInfo cfg env doc p.1).subtokens.length < cfg.min_subtokens then
      bestFrom cfg env doc kbm rest bv bi len
    else
      bestFrom cfg env doc kbm rest
        (bestPart cfg p.2 (trialInfo cfg env doc p.1).subtokens kbm bv bi len).1
        (bestPart cfg p.2 (trialInfo cfg env doc p.1).subtokens kbm bv bi len).2
        (len + 1)

/-- `defaultdict` increments for a whole key list. -/
def bumpAll (f : String → ℕ) (ks : List String) : String → ℕ := ks.foldl bump f

/-- The stable max-by accumulator of the keep-best tracking: strict
improvement moves the best value/index to the current position. -/
def bestAcc : ℚ → ℤ → ℕ → List ℚ → ℚ × ℤ
  | bv, bi, _, [] => (bv, bi)
  | bv, bi, len, v :: vs =>
    if bv < v then bestAcc v (len : ℤ) (len + 1) vs
    else bestAcc bv bi (len + 1) vs

/-- Index and value of the first maximal element of a list. -/
def firstMaxIdxVal : List ℚ → Option (ℕ × ℚ)
  | [] => none
  | v :: vs =>
    match firstMaxIdxVal vs with
    | none => some (0, v)
    | some (j, m) => if v < m then some (j + 1, m) else some (0, v)

lemma firstMaxIdxVal_eq_none {vs : List ℚ} :
    firstMaxIdxVal vs = none ↔ vs = [] := by
  cases vs with
  | nil => simp [firstMaxIdxVal]
  | cons v vs =>
    simp only [firstMaxIdxVal]
    constructor
    · intro h
      cases hf : firstMaxIdxVal vs with
      | none => rw [hf] at h; simp at h
      | some jm =>
        rw [hf] at h
        obtain ⟨j, m⟩ := jm
        simp only at h
        split_ifs at h <;> simp at h
    · intro h; cases h

lemma bestAcc_eq : ∀ (vs : List ℚ) (bv : ℚ) (bi : ℤ) (len : ℕ),
    bestAcc bv bi len vs =
      (match firstMaxIdxVal vs with
       | none => (bv, bi)
       | some (j, m) => if bv < m then (m, ((len + j : ℕ) : ℤ)) else (bv, bi)) := by
  intro vs
  induction vs with
  | nil => intro bv bi len; simp [bestAcc, firstMaxIdxVal]
  | cons v vs ih =>
    intro bv bi len
    have liv := ih v (len : ℤ) (len + 1)
    have lbv := ih bv bi (len + 1)
    simp only [bestAcc, firstMaxIdxVal]
    cases hf : firstMaxIdxVal vs with
    | none =>
      rw [hf] at liv lbv
      dsimp only at liv lbv ⊢
      rw [liv, lbv]
      norm_num
    | some jm =>
      obtain ⟨j, m⟩ := jm
      rw [hf] at liv lbv
      dsimp only at liv lbv ⊢
      rw [liv, lbv]
      by_cases hvm : v < m
      · simp only [if_pos hvm]
        by_cases hbv : bv < v
        · have hbm : bv < m := lt_trans hbv hvm
          simp only [if_pos hbv, if_pos hbm]
          have harith : len + 1 + j = len + (j + 1) := by omega
          rw [harith]
        · simp only [if_neg hbv]
          split_ifs with h
          · have harith : len + 1 + j = len + (j + 1) := by omega
            rw [harith]
          · rfl
      · simp only [if_neg hvm]
        by_cases hbv : bv < v
        · simp only [if_pos hbv]
          norm_num
        · have hnb : ¬ bv < m := fun h => hbv (lt_of_lt_of_le h (not_lt.mp hvm))
          simp only [if_neg hbv, if_neg hnb]

lemma firstMaxIdxVal_spec :
    ∀ (vs : List ℚ) (j : ℕ) (m : ℚ), firstMaxIdxVal vs = some (j, m) →
      vs[j]? = some m ∧ (∀ v ∈ vs, v ≤ m) ∧
        (∀ k v, k < j → vs[k]? = some v → v < m) := by
  intro vs
  induction vs with
  | nil => intro j m h; simp [firstMaxIdxVal] at h
  | cons v vs ih =>
    intro j m h
    simp only [firstMaxIdxVal] at h
    cases hf : firstMaxIdxVal vs with
    | none =>
      rw [hf] at h
      simp only [Option.some.injEq, Prod.mk.injEq] at h
      obtain ⟨hj, hm⟩ := h
      subst hj; subst hm
      have hvs : vs = [] := firstMaxIdxVal_eq_none.mp hf
      subst hvs
      refine ⟨by simp, ?_, ?_⟩
      · intro w hw
        simp only [List.mem_singleton] at hw
        simp [hw]
      · intro k w hk _
        exact absurd hk (Nat.not_lt_zero k)
    | some jm =>
      obtain ⟨j', m'⟩ := jm
      rw [hf] at h
      obtain ⟨hget, hmax, hfirst⟩ := ih j' m' hf
      dsimp only at h
      split_ifs at h with hvm
      · simp only [Option.some.injEq, Prod.mk.injEq] at h
        obtain ⟨hj, hm⟩ := h
        subst hj; subst hm
        refine ⟨by simpa using hget, ?_, ?_⟩
        · intro w hw
          rcases List.mem_cons.mp hw with hw | hw
          · subst hw; exact le_of_lt hvm
          · exact hmax w hw
        · intro k w hk hkw
          cases k with
          | zero =>
            simp only [List.getElem?_cons_zero, Option.some.injEq] at hkw
            subst hkw; exact hvm
          | succ k' =>
            simp only [List.getElem?_cons_succ] at hkw
            exact hfirst k' w (by omega) hkw
      · simp only [Option.some.injEq, Prod.mk.injEq] at h
        obtain ⟨hj, hm⟩ := h
        subst hj; subst hm
        refine ⟨by simp, ?_, ?_⟩
        · intro w hw
          rcases List.mem_cons.mp hw with hw | hw
          · subst hw; exact le_refl w
          · exact le_trans (hmax w hw) (not_lt.mp hvm)
        · intro k w hk _
          exact absurd hk (Nat.not_lt_zero k)

/-- The unlabelled loop of `process_line`, characterised: it appends the
candidate records, runs the stable max-by accumulator over them, appends
the `slc` candidate scores to `ocrqa_stats`, and bumps `lang_stats` once
per scored candidate. -/
lemma scanLangs_spec (cfg : Config) (env : Env) (doc : RawDoc)
    (kbm : Option String) :
    ∀ (l : List (ℕ × (String → Bool))) (results : List ScoreRecord)
      (bv : ℚ) (bi : ℤ) (st : PState),
      scanLangs cfg env doc kbm l (results, bv, bi, st) =
        (results ++ candidatesFrom cfg env doc l,
         (bestFrom cfg env doc kbm l bv bi results.length).1,
         (bestFrom cfg env doc kbm l bv bi results.length).2,
         { ocrqaStats := st.ocrqaStats ++ slcStatsFrom cfg env doc l,
           langStats := bumpAll st.langStats (scoredLangsFrom cfg env doc l) }) := by
  intro l
  induction l with
  | nil =>
    intro results bv bi st
    simp [scanLangs, candidatesFrom, bestFrom, slcStatsFrom, scoredLangsFrom,
      bumpAll]
  | cons p rest ih =>
    obtain ⟨i, bf⟩ := p
    intro results bv bi st
    by_cases h :
        (get_subtokens cfg env doc (some (cfg.languages.getD i ""))).subtokens.length
          < cfg.min_subtokens
    · simp only [scanLangs, candidatesFrom, bestFrom, slcStatsFrom,
        scoredLangsFrom, trialInfo, List.filterMap_cons, h, if_pos, ite_true,
        ite_false, if_true, if_false]
      rw [ih]
      simp [candidatesFrom, bestFrom, slcStatsFrom, scoredLangsFrom, trialInfo]
    · simp only [scanLangs, candidatesFrom, bestFrom, slcStatsFrom,
        scoredLangsFrom, trialInfo, List.filterMap_cons, compute_results, h,
        if_pos, ite_true, ite_false, if_true, if_false]
      rw [ih]
      simp only [candidatesFrom, bestFrom, slcStatsFrom, scoredLangsFrom,
        trialInfo, List.append_assoc, List.singleton_append, List.length_append,
        List.length_singleton, List.join, List.flatten_cons, bumpAll,
        List.foldl_cons]

/-! ### Behaviour of the best-candidate tracking under an active
keep-best method -/

lemma mem_of_head? {l : List String} {m : String} (h : l.head? = some m) :
    m ∈ l := by
  cases l with
  | nil => simp at h
  | cons a as => simp at h; simp [h]

lemma methodScore_nonneg (cfg : Config) (m : String) (bf : String → Bool)
    (subtoks : List String) : 0 ≤ methodScore cfg m bf subtoks := by
  unfold methodScore
  split_ifs
  · exact compute_ocrqa_slc_nonneg _ _ _
  · exact compute_ocrqa_unk_ratio_nonneg _ _
  · exact compute_ocrqa_unk_type_ratio_nonneg _ _
  · exact le_refl 0

lemma methodScore_le_one (cfg : Config) (m : String) (bf : String → Bool)
    (subtoks : List String) (hm3 : m ∈ validMethods) :
    methodScore cfg m bf subtoks ≤ 1 := by
  rcases (show m = "slc" ∨ m = "unk_ratio" ∨ m = "unk_type_ratio" by
    simpa [validMethods] using hm3) with h | h | h <;> subst h <;>
    unfold methodScore <;> norm_num
  · exact compute_ocrqa_slc_le_one _ _ _
  · exact compute_ocrqa_unk_ratio_le_one _ _
  · exact compute_ocrqa_unk_type_ratio_le_one _ _

lemma bestUpdate_ne {m nm : String} (h : m ≠ nm) (v bv : ℚ) (bi : ℤ) (len : ℕ) :
    bestUpdate (some m) nm v bv bi len = (bv, bi) := by
  unfold bestUpdate
  rw [if_neg]
  rintro ⟨h1, _⟩
  exact h (Option.some.injEq m nm ▸ h1)

lemma bestUpdate_self (nm : String) (v bv : ℚ) (bi : ℤ) (len : ℕ) :
    bestUpdate (some nm) nm v bv bi len =
      if bv < v then (v, (len : ℤ)) else (bv, bi) := by
  unfold bestUpdate
  by_cases h : bv < v
  · rw [if_pos ⟨rfl, h⟩, if_pos h]
  · rw [if_neg (fun hh => h hh.2), if_neg h]

lemma methodScore_slc (cfg : Config) (bf : String → Bool) (l : List String) :
    methodScore cfg "slc" bf l = compute_ocrqa_slc cfg.single_letter_cost bf l := rfl

lemma methodScore_unk_ratio (cfg : Config) (bf : String → Bool) (l : List String) :
    methodScore cfg "unk_ratio" bf l = compute_ocrqa_unk_ratio bf l := rfl

lemma methodScore_unk_type_ratio (cfg : Config) (bf : String → Bool) (l : List String) :
    methodScore cfg "unk_type_ratio" bf l = compute_ocrqa_unk_type_ratio bf l := rfl

/-- With an active keep-best method `m` (which is configured), the three
conditional updates of `compute_results` collapse to a single stable
max-by step on the score of method `m`. -/
lemma bestPart_eq (cfg : Config) (bf : String → Bool) (subtoks : List String)
    (m : String) (hmem : m ∈ cfg.methods) (hm3 : m ∈ validMethods)
    (bv : ℚ) (bi : ℤ) (len : ℕ) :
    bestPart cfg bf subtoks (some m) bv bi len =
      if bv < methodScore cfg m bf subtoks
      then (methodScore cfg m bf subtoks, (len : ℤ)) else (bv, bi) := by
  rcases (show m = "slc" ∨ m = "unk_ratio" ∨ m = "unk_type_ratio" by
    simpa [validMethods] using hm3) with h | h | h <;> subst h
  · by_cases h2 : "unk_ratio" ∈ cfg.methods <;>
      by_cases h3 : "unk_type_ratio" ∈ cfg.methods <;>
      simp [bestPart, hmem, h2, h3, bestUpdate_self, methodScore_slc,
        bestUpdate_ne (show "slc" ≠ "unk_ratio" by decide),
        bestUpdate_ne (show "slc" ≠ "unk_type_ratio" by decide)]
  · by_cases h1 : "slc" ∈ cfg.methods <;>
      by_cases h3 : "unk_type_ratio" ∈ cfg.methods <;>
      simp [bestPart, hmem, h1, h3, bestUpdate_self, methodScore_unk_ratio,
        bestUpdate_ne (show "unk_ratio" ≠ "slc" by decide),
        bestUpdate_ne (show "unk_ratio" ≠ "unk_type_ratio" by decide)]
  · by_cases h1 : "slc" ∈ cfg.methods <;>
      by_cases h2 : "unk_ratio" ∈ cfg.methods <;>
      simp [bestPart, hmem, h1, h2, bestUpdate_self, methodScore_unk_type_ratio,
        bestUpdate_ne (show "unk_type_ratio" ≠ "slc" by decide),
        bestUpdate_ne (show "unk_type_ratio" ≠ "unk_ratio" by decide)]

/-- When the first configured method is `m`, the `ocrqa` field of a
freshly built record is the score of method `m`. -/
lemma mkRecord_ocrqa (cfg : Config) (env : Env) (info : SubtoksInfo)
    (subtoks : List String) (bf : String → Bool) (lang : String) (i : ℕ)
    (m : String) (hhead : cfg.methods.head? = some m) (hm3 : m ∈ validMethods) :
    (mkRecord cfg env info subtoks bf lang i).ocrqa =
      some (methodScore cfg m bf subtoks) := by
  have hmem : m ∈ cfg.methods := mem_of_head? hhead
  rcases (show m = "slc" ∨ m = "unk_ratio" ∨ m = "unk_type_ratio" by
    simpa [validMethods] using hm3) with h | h | h <;> subst h <;>
    unfold mkRecord <;> rw [hhead] <;>
    by_cases h1 : "slc" ∈ cfg.methods <;>
    by_cases h2 : "unk_ratio" ∈ cfg.methods <;>
    by_cases h3 : "unk_type_ratio" ∈ cfg.methods <;>
    by_cases h4 : cfg.verbose_output = true <;>
    first
      | (exact absurd hmem (by assumption))
      | simp [h1, h2, h3, h4, methodScore_slc, methodScore_unk_ratio,
          methodScore_unk_type_ratio]

/-- All candidate records `process_line` produces for a parsed document,
before best-selection: one per configured language in the unlabelled
case, at most one in the labelled case. -/
def candidatesOfDoc (cfg : Config) (env : Env) (doc : RawDoc) :
    List ScoreRecord :=
  match effLang env doc with
  | some lg =>
    if lg ∈ cfg.languages then
      if (get_subtokens cfg env doc (some lg)).subtokens.length
          < cfg.min_subtokens then []
      else [mkRecord cfg env (get_subtokens cfg env doc (some lg))
        (get_subtokens cfg env doc (some lg)).subtokens
        (env.blooms.getD (cfg.languages.indexOf lg) (fun _ => false)) lg
        (cfg.languages.indexOf lg)]
    else []
  | none => candidatesFrom cfg env doc env.blooms.enum

lemma candidatesFrom_agg (cfg : Config) (env : Env) (doc : RawDoc)
    (l : List (ℕ × (String → Bool))) (m : String)
    (hhead : cfg.methods.head? = some m) (hm3 : m ∈ validMethods) :
    ∀ r ∈ candidatesFrom cfg env doc l, 0 ≤ aggOf r ∧ aggOf r ≤ 1 := by
  intro r hr
  unfold candidatesFrom at hr
  rw [List.mem_filterMap] at hr
  obtain ⟨p, _, hsome⟩ := hr
  by_cases h : (trialInfo cfg env doc p.1).subtokens.length < cfg.min_subtokens
  · rw [if_pos h] at hsome
    exact absurd hsome (by simp)
  · rw [if_neg h, Option.some.injEq] at hsome
    subst hsome
    constructor
    · unfold aggOf
      rw [mkRecord_ocrqa _ _ _ _ _ _ _ m hhead hm3]
      simpa using methodScore_nonneg cfg m p.2 _
    · unfold aggOf
      rw [mkRecord_ocrqa _ _ _ _ _ _ _ m hhead hm3]
      simpa using methodScore_le_one cfg m p.2 _ hm3

/-- Under an active keep-best method, the best-candidate accumulator of
the unlabelled loop is exactly the stable max-by fold over the candidate
aggregate scores. -/
lemma bestFrom_eq (cfg : Config) (env : Env) (doc : RawDoc) (m : String)
    (hmem : m ∈ cfg.methods) (hm3 : m ∈ validMethods)
    (hhead : cfg.methods.head? = some m) :
    ∀ (l : List (ℕ × (String → Bool))) (bv : ℚ) (bi : ℤ) (len : ℕ),
      bestFrom cfg env doc (some m) l bv bi len =
        bestAcc bv bi len ((candidatesFrom cfg env doc l).map aggOf) := by
  intro l
  induction l with
  | nil => intro bv bi len; simp [bestFrom, candidatesFrom, bestAcc]
  | cons p rest ih =>
    obtain ⟨i, bf⟩ := p
    intro bv bi len
    by_cases h : (trialInfo cfg env doc i).subtokens.length < cfg.min_subtokens
    · simp only [bestFrom, candidatesFrom, List.filterMap_cons, h, if_pos,
        ite_true]
      exact ih bv bi len
    · have hagg : aggOf (mkRecord cfg env (trialInfo cfg env doc i)
          (trialInfo cfg env doc i).subtokens bf (cfg.languages.getD i "") i) =
          methodScore cfg m bf (trialInfo cfg env doc i).subtokens := by
        unfold aggOf
        rw [mkRecord_ocrqa _ _ _ _ _ _ _ m hhead hm3]
        rfl
      simp only [bestFrom, candidatesFrom, List.filterMap_cons, h, ite_false,
        if_neg, not_false_iff, List.map_cons, hagg]
      rw [ih, bestPart_eq cfg bf _ m hmem hm3]
      simp only [bestAcc, List.map_cons, hagg]
      by_cases hbv : bv < methodScore cfg m bf (trialInfo cfg env doc i).subtokens
      · simp only [if_pos hbv]
        rfl
      · simp only [if_neg hbv]
        rfl

/-- Central lemma for the keep-best claims: with best-selection active
and at least one candidate, `process_line` emits exactly the earliest
candidate of maximal aggregate score. -/
lemma process_line_keepBest (cfg : Config) (env : Env) (st : PState)
    (doc : RawDoc) (m : String)
    (hact : cfg.keep_best = true ∨ cfg.methods.length = 1)
    (hhead : cfg.methods.head? = some m)
    (hm3 : m ∈ validMethods)
    (hne : candidatesOfDoc cfg env doc ≠ []) :
    ∃ (st' : PState) (c : ScoreRecord) (j : ℕ),
      process_line cfg env st (some doc) = Except.ok ([c], st') ∧
      (candidatesOfDoc cfg env doc)[j]? = some c ∧
      (∀ d ∈ candidatesOfDoc cfg env doc, aggOf d ≤ aggOf c) ∧
      (∀ k d, k < j → (candidatesOfDoc cfg env doc)[k]? = some d →
        aggOf d < aggOf c) := by
  have hkbm : keepBestMethod cfg = some m := by
    unfold keepBestMethod
    rw [if_pos hact, hhead]
  have hmem : m ∈ cfg.methods := mem_of_head? hhead
  cases heff : effLang env doc with
  | some lg =>
    by_cases hlang : lg ∈ cfg.languages
    · by_cases hskip : (get_subtokens cfg env doc (some lg)).subtokens.length
          < cfg.min_subtokens
      · exact absurd (by simp [candidatesOfDoc, heff, hlang, hskip]) hne
      · have hC : candidatesOfDoc cfg env doc =
            [mkRecord cfg env (get_subtokens cfg env doc (some lg))
              (get_subtokens cfg env doc (some lg)).subtokens
              (env.blooms.getD (cfg.languages.indexOf lg) (fun _ => false)) lg
              (cfg.languages.indexOf lg)] := by
          simp [candidatesOfDoc, heff, hlang, hskip]
        set bf := env.blooms.getD (cfg.languages.indexOf lg) (fun _ => false)
          with hbf
        set c0 := mkRecord cfg env (get_subtokens cfg env doc (some lg))
          (get_subtokens cfg env doc (some lg)).subtokens bf lg
          (cfg.languages.indexOf lg) with hc0
        have hV : aggOf c0 =
            methodScore cfg m bf (get_subtokens cfg env doc (some lg)).subtokens := by
          unfold aggOf
          rw [hc0, mkRecord_ocrqa _ _ _ _ _ _ _ m hhead hm3]
          rfl
        have hVnn : (-1 : ℚ) <
            methodScore cfg m bf (get_subtokens cfg env doc (some lg)).subtokens :=
          lt_of_lt_of_le (by norm_num) (methodScore_nonneg cfg m bf _)
        have hpl : process_line cfg env st (some doc) =
            Except.ok ([c0], appendStat
              { ocrqaStats := st.ocrqaStats ++
                  statsAdds cfg bf (get_subtokens cfg env doc (some lg)).subtokens,
                langStats := bump st.langStats lg } c0) := by
          simp only [process_line, processDoc, heff, hlang, hskip,
            compute_results, ite_true, ite_false, if_pos, if_neg,
            not_false_iff, hkbm]
          rw [bestPart_eq cfg bf _ m hmem hm3, if_pos hVnn]
          unfold finalize
          dsimp only
          rw [if_pos ⟨hact, by omega⟩]
          simp [hc0, hbf]
        refine ⟨_, c0, 0, hpl, ?_, ?_, ?_⟩
        · rw [hC]; rfl
        · intro d hd
          rw [hC, List.mem_singleton] at hd
          subst hd
          exact le_refl _
        · intro k d hk _
          exact absurd hk (Nat.not_lt_zero k)
    · exact absurd (by simp [candidatesOfDoc, heff, hlang]) hne
  | none =>
    have hC : candidatesOfDoc cfg env doc =
        candidatesFrom cfg env doc env.blooms.enum := by
      simp [candidatesOfDoc, heff]
    have hvs_ne : (candidatesFrom cfg env doc env.blooms.enum).map aggOf ≠ [] := by
      rw [hC] at hne
      simpa using hne
    cases hfm : firstMaxIdxVal
        ((candidatesFrom cfg env doc env.blooms.enum).map aggOf) with
    | none => exact absurd (firstMaxIdxVal_eq_none.mp hfm) hvs_ne
    | some jm =>
      obtain ⟨j, mv⟩ := jm
      obtain ⟨hget, hmax, hfirst⟩ := firstMaxIdxVal_spec _ j mv hfm
      have hgetC : ∃ c, (candidatesFrom cfg env doc env.blooms.enum)[j]? = some c
          ∧ aggOf c = mv := by
        rw [List.getElem?_map] at hget
        cases hcj : (candidatesFrom cfg env doc env.blooms.enum)[j]? with
        | none => rw [hcj] at hget; simp at hget
        | some c =>
          rw [hcj] at hget
          simp at hget
          exact ⟨c, rfl, hget⟩
      obtain ⟨c, hcj, hcv⟩ := hgetC
      have hmv_nn : 0 ≤ mv := by
        have hmem' := List.getElem?_mem hget
        rw [List.mem_map] at hmem'
        obtain ⟨r, hr, hrv⟩ := hmem'
        rw [← hrv]
        exact (candidatesFrom_agg cfg env doc _ m hhead hm3 r hr).1
      have hmv1 : (-1 : ℚ) < mv := lt_of_lt_of_le (by norm_num) hmv_nn
      have hpl : process_line cfg env st (some doc) =
          Except.ok ([c], appendStat
            { ocrqaStats := st.ocrqaStats ++
                slcStatsFrom cfg env doc env.blooms.enum,
              langStats := bumpAll st.langStats
                (scoredLangsFrom cfg env doc env.blooms.enum) } c) := by
        simp only [process_line, processDoc, heff, hkbm]
        rw [scanLangs_spec]
        simp only [List.nil_append, List.length_nil]
        rw [bestFrom_eq cfg env doc m hmem hm3 hhead, bestAcc_eq, hfm]
        simp only [if_pos hmv1, Nat.zero_add]
        unfold finalize
        dsimp only
        rw [if_pos ⟨hact, by omega⟩]
        rw [List.getD_eq_getElem?_getD, Int.toNat_ofNat, hcj]
        rfl
      refine ⟨_, c, j, hpl, ?_, ?_, ?_⟩
      · rw [hC]; exact hcj
      · intro d hd
        rw [hC] at hd
        rw [hcv]
        exact hmax (aggOf d) (List.mem_map_of_mem aggOf hd)
      · intro k d hk hkd
        rw [hC] at hkd
        rw [hcv]
        refine hfirst k (aggOf d) hk ?_
        rw [List.getElem?_map, hkd]
        rfl

/-! ### Accounting of `lang_stats` -/

lemma appendStat_langStats (st : PState) (r : ScoreRecord) :
    (appendStat st r).langStats = st.langStats := by
  unfold appendStat
  cases statScoreOf r <;> rfl

lemma foldl_appendStat_langStats :
    ∀ (rs : List ScoreRecord) (st : PState),
      (rs.foldl appendStat st).langStats = st.langStats := by
  intro rs
  induction rs with
  | nil => intro st; rfl
  | cons r rs ih =>
    intro st
    rw [List.foldl_cons, ih, appendStat_langStats]

lemma finalize_langStats (cfg : Config) (x : List ScoreRecord × ℤ × PState) :
    (finalize cfg x).2.langStats = x.2.2.langStats := by
  obtain ⟨results, bi, st⟩ := x
  unfold finalize
  dsimp only
  split_ifs
  · exact appendStat_langStats _ _
  · exact foldl_appendStat_langStats _ _

/-- The keys of `self.lang_stats` that processing one parsed document
increments, with multiplicity: one per scored candidate (also when
best-selection later discards the candidate), or the
`missing-dict-for-<lang>` diagnostic key when the label is unknown.
Documents skipped for a below-minimum subtoken count bump nothing. -/
def bumpKeysOfDoc (cfg : Config) (env : Env) (doc : RawDoc) : List String :=
  match effLang env doc with
  | some lg =>
    if lg ∈ cfg.languages then
      if (get_subtokens cfg env doc (some lg)).subtokens.length
          < cfg.min_subtokens then []
      else [lg]
    else ["missing-dict-for-" ++ lg]
  | none => scoredLangsFrom cfg env doc env.blooms.enum

lemma bumpAll_apply :
    ∀ (ks : List String) (f : String → ℕ) (x : String),
      bumpAll f ks x = f x + ks.count x := by
  intro ks
  induction ks with
  | nil => intro f x; simp [bumpAll]
  | cons k ks ih =>
    intro f x
    show bumpAll (bump f k) ks x = f x + (k :: ks).count x
    rw [ih (bump f k) x, List.count_cons]
    unfold bump
    by_cases h : x = k
    · subst h; simp; omega
    · rw [if_neg h]
      have hb : (k == x) = false := by
        simp only [beq_eq_false_iff_ne]
        exact fun hk => h hk.symm
      simp [hb]

lemma bump_count_singleton (f : String → ℕ) (lg k : String) :
    bump f lg k = f k + ([lg] : List String).count k := by
  unfold bump
  by_cases h : k = lg
  · subst h; simp
  · rw [if_neg h]
    have hb : (lg == k) = false := by
      simp only [beq_eq_false_iff_ne]
      exact fun hk => h hk.symm
    simp [List.count_cons, hb]

/-- The effect of processing one parsed document on `lang_stats` is
exactly the increments of `bumpKeysOfDoc`. -/
lemma processDoc_langStats (cfg : Config) (env : Env) (st : PState)
    (doc : RawDoc) (k : String) :
    (processDoc cfg env st doc).2.langStats k =
      st.langStats k + (bumpKeysOfDoc cfg env doc).count k := by
  cases heff : effLang env doc with
  | some lg =>
    by_cases hlang : lg ∈ cfg.languages
    · by_cases hskip : (get_subtokens cfg env doc (some lg)).subtokens.length
          < cfg.min_subtokens
      · simp [processDoc, bumpKeysOfDoc, heff, hlang, hskip]
      · simp only [processDoc, bumpKeysOfDoc, heff, hlang, hskip, ite_true,
          ite_false, if_pos, if_neg, not_false_iff]
        rw [finalize_langStats]
        exact bump_count_singleton st.langStats lg k
    · simp only [processDoc, bumpKeysOfDoc, heff, hlang, ite_false, if_neg,
        not_false_iff]
      exact bump_count_singleton st.langStats ("missing-dict-for-" ++ lg) k
  | none =>
    simp only [processDoc, bumpKeysOfDoc, heff]
    rw [finalize_langStats, scanLangs_spec]
    exact bumpAll_apply _ st.langStats k

/-- Per-run bump keys: lines up to (excluding) the first malformed line
contribute; a malformed line aborts the run. -/
def bumpKeysOfLines (cfg : Config) (env : Env) : List Line → List String
  | [] => []
  | none :: _ => []
  | some d :: rest => bumpKeysOfDoc cfg env d ++ bumpKeysOfLines cfg env rest

lemma runLines_langStats (cfg : Config) (env : Env) :
    ∀ (ls : List Line) (st : PState) (k : String),
      (runLines cfg env ls st).2.1.langStats k =
        st.langStats k + (bumpKeysOfLines cfg env ls).count k := by
  intro ls
  induction ls with
  | nil => intro st k; simp [runLines, bumpKeysOfLines]
  | cons l rest ih =>
    intro st k
    cases l with
    | none => simp [runLines, process_line, bumpKeysOfLines]
    | some d =>
      simp only [runLines, process_line, bumpKeysOfLines]
      rw [ih, processDoc_langStats, List.count_append]
      omega

/-! ### `single_symbol_cost` is dead configuration: no operation reads it -/

lemma scanLangs_sscost (cfg : Config) (x : ℚ) (env : Env) (doc : RawDoc)
    (kbm : Option String) :
    ∀ l acc, scanLangs { cfg with single_symbol_cost := x } env doc kbm l acc =
      scanLangs cfg env doc kbm l acc := by
  intro l
  induction l with
  | nil => intro acc; rfl
  | cons p rest ih =>
    intro acc
    obtain ⟨i, bf⟩ := p
    obtain ⟨results, bv, bi, st⟩ := acc
    simp only [scanLangs, get_subtokens, compute_results, mkRecord, bestPart,
      bestUpdate, statsAdds, compute_subtoken_char_ratio, unkFreq, ih]

lemma processDoc_sscost (cfg : Config) (x : ℚ) (env : Env) (st : PState)
    (doc : RawDoc) :
    processDoc { cfg with single_symbol_cost := x } env st doc =
      processDoc cfg env st doc := by
  simp only [processDoc, keepBestMethod, finalize, get_subtokens,
    compute_results, mkRecord, bestPart, bestUpdate, statsAdds,
    compute_subtoken_char_ratio, unkFreq, scanLangs_sscost]

lemma process_line_sscost (cfg : Config) (x : ℚ) (env : Env) (st : PState)
    (line : Line) :
    process_line { cfg with single_symbol_cost := x } env st line =
      process_line cfg env st line := by
  cases line with
  | none => rfl
  | some d => simp only [process_line, processDoc_sscost]

lemma runLines_sscost (cfg : Config) (x : ℚ) (env : Env) :
    ∀ (ls : List Line) (st : PState),
      runLines { cfg with single_symbol_cost := x } env ls st =
        runLines cfg env ls st := by
  intro ls
  induction ls with
  | nil => intro st; rfl
  | cons l rest ih =>
    intro st
    simp only [runLines, process_line_sscost, ih]

/-! ### Lowercasing happens before normalization and segmentation -/

lemma get_subtokens_lower (cfg : Config) (env : Env) (doc : RawDoc)
    (hid : ∀ s, env.lower (env.lower s) = env.lower s) (lang : Option String) :
    get_subtokens cfg env { doc with ft := doc.ft.map env.lower } lang =
      get_subtokens cfg env doc lang := by
  cases hft : doc.ft with
  | none => simp [get_subtokens, hft]
  | some f => simp [get_subtokens, hft, hid]

lemma scanLangs_lower (cfg : Config) (env : Env) (doc : RawDoc)
    (kbm : Option String)
    (hid : ∀ s, env.lower (env.lower s) = env.lower s) :
    ∀ l acc,
      scanLangs cfg env { doc with ft := doc.ft.map env.lower } kbm l acc =
        scanLangs cfg env doc kbm l acc := by
  intro l
  induction l with
  | nil => intro acc; rfl
  | cons p rest ih =>
    intro acc
    obtain ⟨i, bf⟩ := p
    obtain ⟨results, bv, bi, st⟩ := acc
    simp only [scanLangs, get_subtokens_lower cfg env doc hid, ih]

lemma processDoc_lower (cfg : Config) (env : Env) (st : PState) (doc : RawDoc)
    (hid : ∀ s, env.lower (env.lower s) = env.lower s) :
    processDoc cfg env st { doc with ft := doc.ft.map env.lower } =
      processDoc cfg env st doc := by
  simp only [processDoc, effLang, lidLookup,
    get_subtokens_lower cfg env doc hid, scanLangs_lower cfg env doc _ hid]

/-! ### Concrete test fixtures -/

/-- A two-word German-like oracle. -/
def bfDE : String → Bool := fun s => ["aa", "bb"].contains s

/-- A one-word French-like oracle. -/
def bfFR : String → Bool := fun s => ["aa"].contains s

/-- A concrete tokenizer instance (the tokenizer is an external
collaborator; this instance always yields two subtokens). -/
def tok0 : Option String → ℕ → String → List String := fun _ _ _ => ["aa", "bb"]

/-- Concrete environment: two oracles, identity normalizer and lowercaser,
no language-identification data. -/
def env0 : Env :=
  { blooms := [bfDE, bfFR], tok := tok0, normalize := fun _ s => s,
    lower := fun s => s, lid := none, timestamp := "t0", git_version := none }

/-- Concrete configuration: two languages, single method `slc` (so
best-selection is implicitly active), defaults otherwise. -/
def cfg0 : Config :=
  { languages := ["de", "fr"], bloomdicts := ["d.bloom", "f.bloom"],
    methods := ["slc"], keep_best := false, single_letter_cost := 7/10,
    single_symbol_cost := 3/10, min_subtokens := 1, min_subtoken_length := 1,
    verbose_output := false, unicode_normalization := none }

/-- A concrete parsed document. -/
def doc0 : RawDoc := { id := some "D1", ft := some "xxxx" }

lemma len_aa : ("aa" : String).length = 2 := rfl

lemma len_bb : ("bb" : String).length = 2 := rfl

lemma mne1 : ("slc" : String) ≠ "unk_ratio" := by decide

lemma mne2 : ("slc" : String) ≠ "unk_type_ratio" := by decide

lemma mne3 : ("unk_ratio" : String) ≠ "slc" := by decide

lemma mne4 : ("unk_ratio" : String) ≠ "unk_type_ratio" := by decide

lemma mne5 : ("unk_type_ratio" : String) ≠ "slc" := by decide

lemma mne6 : ("unk_type_ratio" : String) ≠ "unk_ratio" := by decide

lemma mne7 : ("fr" : String) ≠ "de" := by decide

lemma mne8 : ("de" : String) ≠ "fr" := by decide

lemma mne9 : ("bb" : String) ≠ "aa" := by decide

lemma mne10 : ("aa" : String) ≠ "bb" := by decide



/-! ### The claims -/

/-- C1: for every subtoken sequence, oracle and single-letter cost, each
of the three score calculators `compute_ocrqa_slc`,
`compute_ocrqa_unk_ratio` and `compute_ocrqa_unk_type_ratio` returns a
value in `[0,1]` and returns exactly `0.0` on empty input; the Lean
functions are total, so no evaluation raises.  In particular the `slc`
score, with the SL budget initialised to `-count/20`, incremented by
`single_letter_cost` per in-vocabulary non-privileged single character,
and floored at `0` before use, is `round(IV/(IV+SL+OOV), 2) ∈ [0,1]`. -/
theorem claim_C1 (cost : ℚ) (bf : String → Bool) (subtoks : List String) :
    (0 ≤ compute_ocrqa_slc cost bf subtoks ∧
      compute_ocrqa_slc cost bf subtoks ≤ 1) ∧
    (0 ≤ compute_ocrqa_unk_ratio bf subtoks ∧
      compute_ocrqa_unk_ratio bf subtoks ≤ 1) ∧
    (0 ≤ compute_ocrqa_unk_type_ratio bf subtoks ∧
      compute_ocrqa_unk_type_ratio bf subtoks ≤ 1) ∧
    compute_ocrqa_slc cost bf [] = 0 ∧
    compute_ocrqa_unk_ratio bf [] = 0 ∧
    compute_ocrqa_unk_type_ratio bf [] = 0 :=
  ⟨⟨compute_ocrqa_slc_nonneg cost bf subtoks,
    compute_ocrqa_slc_le_one cost bf subtoks⟩,
   ⟨compute_ocrqa_unk_ratio_nonneg bf subtoks,
    compute_ocrqa_unk_ratio_le_one bf subtoks⟩,
   ⟨compute_ocrqa_unk_type_ratio_nonneg bf subtoks,
    compute_ocrqa_unk_type_ratio_le_one bf subtoks⟩,
   compute_ocrqa_slc_nil cost bf,
   compute_ocrqa_unk_ratio_nil bf,
   compute_ocrqa_unk_type_ratio_nil bf⟩

/-- C2: when best-selection is active (keep_best requested, or exactly one
method configured) and at least one candidate record was produced,
`process_line` emits exactly one record: the earliest-produced candidate
(configured-language order) whose aggregate score equals the maximum over
all candidates; on an exact tie the earlier candidate wins, and all other
candidates are never emitted. -/
theorem claim_C2 (cfg : Config) (env : Env) (st : PState) (doc : RawDoc)
    (hact : cfg.keep_best = true ∨ cfg.methods.length = 1)
    (hm : cfg.methods ≠ [])
    (hsub : ∀ x ∈ cfg.methods, x ∈ validMethods)
    (hne : candidatesOfDoc cfg env doc ≠ []) :
    ∃ (st' : PState) (c : ScoreRecord) (j : ℕ),
      process_line cfg env st (some doc) = Except.ok ([c], st') ∧
      (candidatesOfDoc cfg env doc)[j]? = some c ∧
      (∀ d ∈ candidatesOfDoc cfg env doc, aggOf d ≤ aggOf c) ∧
      (∀ k d, k < j → (candidatesOfDoc cfg env doc)[k]? = some d →
        aggOf d < aggOf c) := by
  obtain ⟨m, hhead⟩ : ∃ m, cfg.methods.head? = some m := by
    cases hl : cfg.methods with
    | nil => exact absurd hl hm
    | cons a as => exact ⟨a, rfl⟩
  exact process_line_keepBest cfg env st doc m hact hhead
    (hsub m (mem_of_head? hhead)) hne

theorem claim_C2_witness :
    ∃ (st' : PState) (c : ScoreRecord) (j : ℕ),
      process_line cfg0 env0 initState (some doc0) = Except.ok ([c], st') ∧
      (candidatesOfDoc cfg0 env0 doc0)[j]? = some c ∧
      (∀ d ∈ candidatesOfDoc cfg0 env0 doc0, aggOf d ≤ aggOf c) ∧
      (∀ k d, k < j → (candidatesOfDoc cfg0 env0 doc0)[k]? = some d →
        aggOf d < aggOf c) :=
  claim_C2 cfg0 env0 initState doc0 (Or.inr (by decide)) (by decide)
    (by decide)
    (by
      norm_num [candidatesOfDoc, candidatesFrom, trialInfo, get_subtokens,
        effLang, env0, cfg0, doc0, tok0, List.enum, List.enumFrom]
      intro h
      simp at h)

/-- C3: the corpus running mean is NOT the arithmetic mean of the emitted
records' aggregate scores: on a one-document run with two languages and
the single method `slc`, the emitted record's aggregate score is `1`, but
`ocrqa_stats` receives the `slc` score of every scored candidate (also
the discarded one) plus one more copy of the emitted record's score, so
the reported mean is `5/6 ≠ 1`.  This contradicts the claim that each
emitted record is folded in exactly once and discarded candidates
contribute nothing. -/
theorem claim_C3 :
    (runLines cfg0 env0 [some doc0] initState).2.1.ocrqaStats = [1, 1/2, 1] ∧
    (runLines cfg0 env0 [some doc0] initState).1.map aggOf = [1] ∧
    meanOf (runLines cfg0 env0 [some doc0] initState).2.1.ocrqaStats = 5/6 ∧
    meanOf ((runLines cfg0 env0 [some doc0] initState).1.map aggOf) = 1 ∧
    (5/6 : ℚ) ≠ 1 := by
  refine ⟨?_, ?_, ?_, ?_, by norm_num⟩ <;>
    norm_num [runLines, process_line, processDoc, cfg0, env0, doc0, initState,
      effLang, keepBestMethod, scanLangs, get_subtokens, tok0, compute_results,
      mkRecord, bestPart, bestUpdate, statsAdds, compute_subtoken_char_ratio,
      finalize, appendStat, statScoreOf, bump, aggOf, meanOf,
      compute_ocrqa_slc, slcStep, bfDE, bfFR, pyRound, roundHalfEven,
      single_chars, List.enum, List.enumFrom, List.getD, len_aa, len_bb,
      mne1, mne2, mne3, mne4, mne5, mne6, mne7, mne8, mne9, mne10]

/-- C4 (counterexample): a malformed input record is NOT skipped with
processing continuing: a run on a malformed line followed by a valid
document emits nothing and aborts, while the same valid document alone
yields one record. -/
theorem claim_C4_counterexample :
    (runLines cfg0 env0 [none, some doc0] initState).1 = [] ∧
    (runLines cfg0 env0 [none, some doc0] initState).2.2 = true ∧
    (runLines cfg0 env0 [some doc0] initState).1.length = 1 := by
  refine ⟨rfl, rfl, ?_⟩
  norm_num [runLines, process_line, processDoc, cfg0, env0, doc0, initState,
    effLang, keepBestMethod, scanLangs, get_subtokens, tok0, compute_results,
    mkRecord, bestPart, bestUpdate, statsAdds, compute_subtoken_char_ratio,
    finalize, appendStat, statScoreOf, bump,
    compute_ocrqa_slc, slcStep, bfDE, bfFR, pyRound, roundHalfEven,
    single_chars, List.enum, List.enumFrom, List.getD, len_aa, len_bb,
    mne1, mne2, mne3, mne4, mne5, mne6, mne7, mne8, mne9, mne10]

/-- C4 (amended): a malformed (unparseable) input record raises; the
exception is caught only by the top-level handler, which logs it and
aborts the whole batch with non-zero status, so the remaining records of
the batch are never processed and nothing more is emitted. -/
theorem claim_C4 (cfg : Config) (env : Env) (st : PState) (ls : List Line) :
    runLines cfg env (none :: ls) st = ([], st, true) := rfl

/-- C5: appending additional out-of-vocabulary subtokens while keeping
the in-vocabulary subtokens fixed never increases the `slc` score (after
its 2-decimal rounding). -/
theorem claim_C5 (cost : ℚ) (bf : String → Bool) (subtoks extra : List String)
    (hoov : ∀ t ∈ extra, bf t = false) :
    compute_ocrqa_slc cost bf (subtoks ++ extra) ≤
      compute_ocrqa_slc cost bf subtoks :=
  compute_ocrqa_slc_append_oov cost bf subtoks extra hoov

theorem claim_C5_witness :
    compute_ocrqa_slc (7/10) bfDE (["aa"] ++ ["zz"]) ≤
      compute_ocrqa_slc (7/10) bfDE ["aa"] :=
  claim_C5 (7/10) bfDE ["aa"] ["zz"] (by decide)

/-- C6 (counterexample): the per-language counter does not equal the
number of emitted records of that language: on a one-document run with
two languages and best-selection active, the `fr` candidate is scored and
discarded, so zero `fr` records are emitted while `lang_stats["fr"] = 1`. -/
theorem claim_C6_counterexample :
    (runLines cfg0 env0 [some doc0] initState).2.1.langStats "fr" = 1 ∧
    ((runLines cfg0 env0 [some doc0] initState).1.filter
      (fun r => r.lg == "fr")).length = 0 := by
  constructor <;>
    norm_num [runLines, process_line, processDoc, cfg0, env0, doc0, initState,
      effLang, keepBestMethod, scanLangs, get_subtokens, tok0, compute_results,
      mkRecord, bestPart, bestUpdate, statsAdds, compute_subtoken_char_ratio,
      finalize, appendStat, statScoreOf, bump,
      compute_ocrqa_slc, slcStep, bfDE, bfFR, pyRound, roundHalfEven,
      single_chars, List.enum, List.enumFrom, List.getD, len_aa, len_bb,
      mne1, mne2, mne3, mne4, mne5, mne6, mne7, mne8, mne9, mne10]

/-- C6 (amended): for every run and key `k`, the final `lang_stats[k]`
counts the candidates actually scored with language `k` (one increment
per computed candidate record, including candidates later discarded by
best-selection), plus the `missing-dict-for-<lang>` diagnostic
increments; documents skipped before scoring contribute nothing.  Emitted
records play no role in the counter. -/
theorem claim_C6 (cfg : Config) (env : Env) (ls : List Line) (st : PState)
    (k : String) :
    (runLines cfg env ls st).2.1.langStats k =
      st.langStats k + (bumpKeysOfLines cfg env ls).count k :=
  runLines_langStats cfg env ls st k

/-- C7: if exactly one method is configured then, regardless of the
`keep_best` flag, best-selection is active and exactly one record is
emitted for a document with at least one candidate meeting the minimum
subtoken count. -/
theorem claim_C7 (cfg : Config) (env : Env) (st : PState) (doc : RawDoc)
    (hone : cfg.methods.length = 1)
    (hsub : ∀ x ∈ cfg.methods, x ∈ validMethods)
    (hne : candidatesOfDoc cfg env doc ≠ []) :
    ∃ (st' : PState) (r : ScoreRecord),
      process_line cfg env st (some doc) = Except.ok ([r], st') := by
  obtain ⟨m, hhead⟩ : ∃ m, cfg.methods.head? = some m := by
    cases hl : cfg.methods with
    | nil => rw [hl] at hone; simp at hone
    | cons a as => exact ⟨a, rfl⟩
  obtain ⟨st', c, j, hpl, -, -, -⟩ := process_line_keepBest cfg env st doc m
    (Or.inr hone) hhead (hsub m (mem_of_head? hhead)) hne
  exact ⟨st', c, hpl⟩

theorem claim_C7_witness :
    ∃ (st' : PState) (r : ScoreRecord),
      process_line cfg0 env0 initState (some doc0) = Except.ok ([r], st') :=
  claim_C7 cfg0 env0 initState doc0 (by decide) (by decide)
    (by
      norm_num [candidatesOfDoc, candidatesFrom, trialInfo, get_subtokens,
        effLang, env0, cfg0, doc0, tok0, List.enum, List.enumFrom]
      intro h
      simp at h)

/-- C8 (counterexample): a score calculator can return `0.0` on non-empty
input, so "a value other than 0.0 on every non-empty input" is false: on
the non-empty subtoken list `["ab"]` with an oracle containing nothing,
all three calculators return `0.0`. -/
theorem claim_C8_counterexample :
    compute_ocrqa_unk_ratio (fun _ => false) ["ab"] = 0 ∧
    compute_ocrqa_unk_type_ratio (fun _ => false) ["ab"] = 0 ∧
    compute_ocrqa_slc (7/10) (fun _ => false) ["ab"] = 0 ∧
    (["ab"] : List String) ≠ [] := by
  refine ⟨?_, ?_, ?_, by simp⟩ <;>
    norm_num [compute_ocrqa_unk_ratio, compute_ocrqa_unk_type_ratio,
      compute_ocrqa_slc, slcStep, pyRound, roundHalfEven, single_chars,
      show List.dedup ["ab"] = ["ab"] from by decide]

/-- C8 (amended): each score calculator returns `0.0` whenever the
relevant subtoken set is empty; the converse fails, since any input none
of whose subtokens the oracle contains also scores `0.0` for all three
calculators. -/
theorem claim_C8 (cost : ℚ) (bf : String → Bool) :
    (compute_ocrqa_slc cost bf [] = 0 ∧
     compute_ocrqa_unk_ratio bf [] = 0 ∧
     compute_ocrqa_unk_type_ratio bf [] = 0) ∧
    ∀ subtoks : List String, (∀ t ∈ subtoks, bf t = false) →
      compute_ocrqa_slc cost bf subtoks = 0 ∧
      compute_ocrqa_unk_ratio bf subtoks = 0 ∧
      compute_ocrqa_unk_type_ratio bf subtoks = 0 := by
  refine ⟨⟨compute_ocrqa_slc_nil cost bf, compute_ocrqa_unk_ratio_nil bf,
    compute_ocrqa_unk_type_ratio_nil bf⟩, ?_⟩
  intro subtoks hall
  refine ⟨?_, ?_, ?_⟩
  · rw [compute_ocrqa_slc_eq]
    have hiv : slcIV bf subtoks = 0 := by
      unfold slcIV
      norm_num [List.countP_eq_zero]
      intro t ht
      simp [isIV, hall t ht]
    split_ifs with h
    · rfl
    · rw [hiv, zero_div, pyRound_zero]
  · unfold compute_ocrqa_unk_ratio
    split_ifs with h
    · rfl
    · have hf : subtoks.filter (fun t => bf t) = [] := by
        rw [List.filter_eq_nil]
        intro t ht
        simp [hall t ht]
      rw [hf]
      norm_num [pyRound_zero]
  · unfold compute_ocrqa_unk_type_ratio
    split_ifs with h
    · rfl
    · have hf : subtoks.dedup.filter (fun t => bf t) = [] := by
        rw [List.filter_eq_nil]
        intro t ht
        simp [hall t (List.mem_dedup.mp ht)]
      rw [hf]
      norm_num [pyRound_zero]

theorem claim_C8_witness :
    compute_ocrqa_slc (7/10) (fun _ => false) ["xy"] = 0 ∧
    compute_ocrqa_unk_ratio (fun _ => false) ["xy"] = 0 ∧
    compute_ocrqa_unk_type_ratio (fun _ => false) ["xy"] = 0 :=
  (claim_C8 (7/10) (fun _ => false)).2 ["xy"] (fun _ _ => rfl)

/-- C9: the `single_symbol_cost` configuration parameter never influences
any output: two runs identical except for its value produce identical
emitted records and identical accumulated statistics (the parameter is
stored but read by no scoring operation). -/
theorem claim_C9 (cfg : Config) (x : ℚ) (env : Env) (ls : List Line)
    (st : PState) :
    runLines { cfg with single_symbol_cost := x } env ls st =
      runLines cfg env ls st :=
  runLines_sscost cfg x env ls st

/-- C10: input text is lowercased before unicode normalization and
segmentation, so (because lowercasing is idempotent) replacing a
document's text field by its lowercased form changes neither the
subtoken sequence and char length nor any score or emitted record. -/
theorem claim_C10 (cfg : Config) (env : Env) (st : PState) (doc : RawDoc)
    (hid : ∀ s, env.lower (env.lower s) = env.lower s) :
    (∀ lang, get_subtokens cfg env { doc with ft := doc.ft.map env.lower } lang
      = get_subtokens cfg env doc lang) ∧
    process_line cfg env st (some { doc with ft := doc.ft.map env.lower }) =
      process_line cfg env st (some doc) :=
  ⟨get_subtokens_lower cfg env doc hid,
   by simp only [process_line, processDoc_lower cfg env st doc hid]⟩

theorem claim_C10_witness :
    (∀ lang, get_subtokens cfg0 env0
        { doc0 with ft := doc0.ft.map env0.lower } lang =
      get_subtokens cfg0 env0 doc0 lang) ∧
    process_line cfg0 env0 initState
        (some { doc0 with ft := doc0.ft.map env0.lower }) =
      process_line cfg0 env0 initState (some doc0) :=
  claim_C10 cfg0 env0 initState doc0 (fun _ => rfl)

end OcrQA
